import Mathlib

/-!
Verification of the analysis and verification engine of the
prime-polynomial-Q47 repository: a shallow embedding of the
Miller-Rabin primality tester with a fixed witness list, the
polynomial Q(n) = n^47 - (n-1)^47, the quadruplet verifier,
the run-length cluster and k-tuple scanners, the gap computation,
and the forbidden-residue analysis modulo 283, together with
theorems settling the specification's claims about them.
-/

set_option maxRecDepth 4000

/-! ## Miller-Rabin primality tester (scripts/verify_quadruplets.py) -/

/-- The loop `while d % 2 == 0: r += 1; d //= 2`: returns `(r, d)` with the
input written as `2 ^ r * d`, `d` odd.  The fuel argument only bounds the
iteration count; it is called with the initial `d` itself, which always
suffices since `d` is halved at every step. -/
def oddPart : Nat → Nat → Nat × Nat
  | 0, d => (0, d)
  | fuel + 1, d =>
    if d % 2 = 0 then
      let p := oddPart fuel (d / 2)
      (p.1 + 1, p.2)
    else (0, d)

/-- Python's built-in three-argument `pow(b, e, m)`: square-and-multiply
modular exponentiation.  The fuel argument only bounds the recursion; it is
called with `e` itself, which always suffices since the exponent is halved
at every step. -/
def powModAux (m : Nat) : Nat → Nat → Nat → Nat
  | 0, _, _ => 1 % m
  | fuel + 1, b, e =>
    if e = 0 then 1 % m
    else
      let h := powModAux m fuel (b * b % m) (e / 2)
      if e % 2 = 1 then h * b % m else h

/-- `pow(b, e, m)` for a positive modulus `m`. -/
def powMod (b e m : Nat) : Nat := powModAux m e (b % m) e

/-- The inner squaring loop `for _ in range(r-1): x = pow(x, 2, n); ...`:
returns `true` when some square reaches `m - 1` (the witness passes),
`false` when the loop exhausts (the candidate is composite). -/
def squareLoop (m : Nat) : Nat → Nat → Bool
  | 0, _ => false
  | t + 1, x =>
    let x2 := x * x % m
    if x2 = m - 1 then true else squareLoop m t x2

/-- The fixed witness list of `is_probable_prime`. -/
def mrWitnesses : List Nat := [2, 3, 5, 7, 11, 13, 17, 19, 23, 29, 31, 37]

/-- One round of the witness loop body: witnesses `a >= n` are skipped,
`x = pow(a, d, n)` passes directly when it is `1` or `n - 1`, otherwise the
squaring loop decides. -/
def witnessPasses (m d r a : Nat) : Bool :=
  if m ≤ a then true
  else
    let x := powMod a d m
    if x = 1 ∨ x = m - 1 then true
    else squareLoop m (r - 1) x

/-- `is_probable_prime(n, k=20)` from scripts/verify_quadruplets.py.  The
parameter `k` is accepted (the Python signature declares it with default 20)
but never read by the body. -/
def is_probable_prime (n : Int) (k : Nat) : Bool :=
  if n < 2 then false
  else if n = 2 ∨ n = 3 then true
  else if n % 2 = 0 then false
  else
    let m := n.toNat
    let rd := oddPart (m - 1) (m - 1)
    mrWitnesses.all (fun a => witnessPasses m rd.2 rd.1 a)

/-- `Q(n) = n^47 - (n-1)^47` from scripts/verify_quadruplets.py. -/
def Q (n : Int) : Int := n ^ 47 - (n - 1) ^ 47

/-- `verify_quadruplet(start_n)` from scripts/verify_quadruplets.py:
the four interior values must test prime and the two boundary values must
test composite (print statements are presentation only and not modelled). -/
def verify_quadruplet (start_n : Int) : Bool :=
  let results := (List.range 4).map
    (fun offset : Nat => is_probable_prime (Q (start_n + (offset : Int))) 20)
  let before_prime := is_probable_prime (Q (start_n - 1)) 20
  let after_prime := is_probable_prime (Q (start_n + 4)) 20
  (results.all (fun b => b)) && (!before_prime) && (!after_prime)

/-! ## Gap computation (scripts/analyze_primes.py) -/

/-- `compute_gaps(n_values)`: `gaps[i] = n_values[i+1] - n_values[i]`,
the loop `for i in range(1, len(n_values))` rendered as a zip of the list
with its tail. -/
def compute_gaps (n_values : List Int) : List Int :=
  List.zipWith (fun a b => b - a) n_values n_values.tail

/-! ## Run-length cluster and k-tuple scanners (scripts/analyze_primes.py)

The Python functions `find_all_clusters` and `find_ktuples` share one
left-to-right scan: an outer `while i < len(n_values)` starting a run at
`n_values[i]` and an inner `while n_values[i+1] == n_values[i] + 1`
extending it.  The scan state is the start of the current run, its length
so far, and its current (last) element; each embedding below carries that
state and recurses structurally over the rest of the list. -/

/-- The scan of `find_all_clusters`: when a run breaks (or the input ends)
it is emitted as `(run_start, run_len)` only when `run_len >= 2`. -/
def clustersAux (rs : Int) (len : Nat) (cur : Int) : List Int → List (Int × Nat)
  | [] => if 2 ≤ len then [(rs, len)] else []
  | x :: rest =>
    if x = cur + 1 then clustersAux rs (len + 1) x rest
    else (if 2 ≤ len then [(rs, len)] else []) ++ clustersAux x 1 x rest

/-- `find_all_clusters(n_values)` from scripts/analyze_primes.py. -/
def find_all_clusters : List Int → List (Int × Nat)
  | [] => []
  | x :: rest => clustersAux x 1 x rest

/-- The scan of `find_ktuples`: when a run breaks (or the input ends) its
start is recorded only when `run_len == k`; longer runs fall into the
explicit `pass` branch and record nothing. -/
def ktuplesAux (k : Nat) (rs : Int) (len : Nat) (cur : Int) : List Int → List Int
  | [] => if len = k then [rs] else []
  | x :: rest =>
    if x = cur + 1 then ktuplesAux k rs (len + 1) x rest
    else (if len = k then [rs] else []) ++ ktuplesAux k x 1 x rest

/-- `find_ktuples(n_values, k)` from scripts/analyze_primes.py. -/
def find_ktuples (n_values : List Int) (k : Nat) : List Int :=
  match n_values with
  | [] => []
  | x :: rest => ktuplesAux k x 1 x rest

/-- The common part of the two scans with no emission filter: every maximal
run is emitted as `(run_start, run_len)`.  `clustersAux` and `ktuplesAux`
are proved equal to a filter over this list, so the characterization of
maximal runs is established once. -/
def runsAux (rs : Int) (len : Nat) (cur : Int) : List Int → List (Int × Nat)
  | [] => [(rs, len)]
  | x :: rest =>
    if x = cur + 1 then runsAux rs (len + 1) x rest
    else (rs, len) :: runsAux x 1 x rest

/-- All maximal runs of a sequence, including singletons. -/
def allRuns : List Int → List (Int × Nat)
  | [] => []
  | x :: rest => runsAux x 1 x rest

/-- The `length`-many consecutive integers starting at `rs`: the expansion
of the run `(rs, length)`. -/
def blockL (rs : Int) (len : Nat) : List Int :=
  (List.range len).map (fun j : Nat => rs + (j : Int))

/-- Every integer covered by some run reported by `find_all_clusters`:
each `(start, length)` pair expanded to its `length` consecutive
integers. -/
def coveredByRuns (l : List Int) : List Int :=
  ((find_all_clusters l).map (fun p => blockL p.1 p.2)).flatten

/-! ## Residue analysis modulo 283 (scripts/analyze_primes.py) -/

/-- The record returned by `analyze_residues_mod_283`. -/
structure ResidueRecord where
  total_primes : Nat
  forbidden_residue_count : Nat
  primes_in_forbidden : Nat
  verification : String
  deriving Repr, DecidableEq

/-- `[x for x in range(1, p) if pow(x, 47, p) == 1]` with `p = 283`. -/
def roots_of_unity : List Nat :=
  (List.range' 1 282).filter (fun x => powMod x 47 283 == 1)

/-- The `forbidden` set of `analyze_residues_mod_283`: for each root of
unity `r != 1`, the residue `r * pow(r - 1, p - 2, p) % p`.  The Python
object is a set, rendered here as the deduplicated list of those values. -/
def forbidden_residues : List Nat :=
  (((roots_of_unity.filter (fun r => r ≠ 1)).map
    (fun r => r * powMod (r - 1) 281 283 % 283))).dedup

/-- `analyze_residues_mod_283(n_values)` from scripts/analyze_primes.py:
`primes_in_forbidden` is `sum(hist.get(r, 0) for r in forbidden)` where
`hist` counts the residues `n % 283`. -/
def analyze_residues_mod_283 (n_values : List Int) : ResidueRecord :=
  let residues := n_values.map (fun n => n % 283)
  let forbidden_count :=
    (forbidden_residues.map (fun r => residues.count ((r : Nat) : Int))).sum
  { total_primes := n_values.length
    forbidden_residue_count := forbidden_residues.length
    primes_in_forbidden := forbidden_count
    verification := if forbidden_count = 0 then "PASS" else "FAIL" }

/-! ## Claims about the primality verifier -/

/-- C1: `verify_quadruplet(s)` returns true if and only if all six checks
hold: `Q(s)`, `Q(s+1)`, `Q(s+2)`, `Q(s+3)` each test prime and `Q(s-1)`,
`Q(s+4)` each test composite. -/
theorem verify_quadruplet_iff (s : Int) :
    verify_quadruplet s = true ↔
      (is_probable_prime (Q s) 20 = true ∧
       is_probable_prime (Q (s + 1)) 20 = true ∧
       is_probable_prime (Q (s + 2)) 20 = true ∧
       is_probable_prime (Q (s + 3)) 20 = true ∧
       is_probable_prime (Q (s - 1)) 20 = false ∧
       is_probable_prime (Q (s + 4)) 20 = false) := by
  have h4 : List.range 4 = [0, 1, 2, 3] := by decide
  unfold verify_quadruplet
  rw [h4]
  simp only [List.map_cons, List.map_nil, List.all_cons, List.all_nil,
    Nat.cast_ofNat, Nat.cast_zero, Nat.cast_one, add_zero,
    Bool.and_true, Bool.and_eq_true, Bool.not_eq_true', and_assoc]

/-- C2: the primality test with the fixed witness set satisfies the four
spot checks: 561 (Carmichael) is rejected, 104729 is accepted, 1 is
rejected, 2 is accepted. -/
theorem is_probable_prime_spot_checks :
    is_probable_prime 561 20 = false ∧ is_probable_prime 104729 20 = true ∧
    is_probable_prime 1 20 = false ∧ is_probable_prime 2 20 = true := by
  refine ⟨by decide, by decide, by decide, by decide⟩

/-- C6 (counterexample): on the operand 1 < 2 the primality test returns
the ordinary verdict `false`; no error path exists in its body. -/
theorem is_probable_prime_one_returns_false : is_probable_prime 1 20 = false := by
  decide

/-- C6 (amended): for every operand `m < 2` (and any `k`) the primality
test returns the ordinary verdict `false` rather than failing. -/
theorem is_probable_prime_lt_two (m : Int) (k : Nat) (h : m < 2) :
    is_probable_prime m k = false := by
  unfold is_probable_prime
  simp [h]

/-- Witness for C6 (amended) at the concrete operand `-5`. -/
theorem is_probable_prime_lt_two_witness : is_probable_prime (-5) 20 = false :=
  is_probable_prime_lt_two (-5) 20 (by decide)

/-- C9: the second parameter `k` of `is_probable_prime` has no effect on
the result, which depends only on `n` and the fixed witness list. -/
theorem is_probable_prime_ignores_k (n : Int) (k1 k2 : Nat) :
    is_probable_prime n k1 = is_probable_prime n k2 := rfl

/-! ## Claims about the residue analysis -/

/-- C10: the forbidden-residue set for `P = 283`, `E = 47` has exactly 46
residue classes and `0` is not among them. -/
theorem forbidden_residues_card :
    forbidden_residues.length = 46 ∧ (0 : Nat) ∉ forbidden_residues := by
  decide

/-- C7: the verification field of `analyze_residues_mod_283` equals
`"PASS"` if and only if the number of sequence elements whose residue
modulo 283 lies in the forbidden set is exactly zero. -/
theorem analyze_residues_pass_iff (n_values : List Int) :
    (analyze_residues_mod_283 n_values).verification = "PASS" ↔
      n_values.countP
        (fun n => decide (∃ r ∈ forbidden_residues, (r : Int) = n % 283)) = 0 := by
  have key :
      ((forbidden_residues.map
          (fun r => (n_values.map (fun n => n % 283)).count ((r : Nat) : Int))).sum = 0 ↔
        n_values.countP
          (fun n => decide (∃ r ∈ forbidden_residues, (r : Int) = n % 283)) = 0) := by
    rw [List.sum_eq_zero_iff, List.countP_eq_zero]
    simp only [List.mem_map, forall_exists_index, and_imp, forall_apply_eq_imp_iff₂,
      List.count_eq_zero, decide_eq_true_eq, not_exists, not_and]
    constructor
    · intro h n hn r hr heq
      exact h r hr n hn heq.symm
    · intro h r hr n hn heq
      exact h n hn r hr heq.symm
  unfold analyze_residues_mod_283
  by_cases hc :
      (forbidden_residues.map
        (fun r => (n_values.map (fun n => n % 283)).count ((r : Nat) : Int))).sum = 0
  · simpa [hc] using key.mp hc
  · simp only [hc, if_neg hc]
    constructor
    · intro h
      exact absurd h (by decide)
    · intro h
      exact absurd (key.mpr h) hc

/-! ## Claims about the gap computation -/

/-- C8 (counterexample): on the one-element sequence `[3]` the gap
computation silently returns the empty list; no error is raised anywhere
in its body or its caller. -/
theorem compute_gaps_singleton_counterexample : compute_gaps [(3 : Int)] = [] := by
  decide

/-- C8 (amended): `compute_gaps` returns a list of length `len(seq) - 1`
whose element `i` is `seq[i+1] - seq[i]`, and for sequences with fewer
than two elements it returns the empty list without failing. -/
theorem compute_gaps_spec (l : List Int) :
    (compute_gaps l).length = l.length - 1 ∧
    (l.length < 2 → compute_gaps l = []) ∧
    ∀ (i : Nat) (h : i + 1 < l.length),
      (compute_gaps l)[i]? = some (l.get ⟨i + 1, h⟩ - l.get ⟨i, Nat.lt_of_succ_lt h⟩) := by
  have hlen : (compute_gaps l).length = l.length - 1 := by
    simp [compute_gaps, List.length_zipWith, List.length_tail]
  refine ⟨hlen, ?_, ?_⟩
  · intro h
    have : (compute_gaps l).length = 0 := by omega
    exact List.eq_nil_of_length_eq_zero this
  · intro i h
    have hi : i < (compute_gaps l).length := by omega
    rw [List.getElem?_eq_getElem hi]
    simp only [compute_gaps, List.getElem_zipWith, List.get_eq_getElem]
    congr 1
    rw [List.getElem_tail]

/-- Witness for C8 (amended) on the sequence `[5, 6, 7, 10, 11, 13]`. -/
theorem compute_gaps_spec_witness :
    (compute_gaps [5, 6, 7, 10, 11, 13]).length = 5 ∧
    (compute_gaps [5, 6, 7, 10, 11, 13])[2]? = some 3 := by
  refine ⟨by simpa using (compute_gaps_spec [5, 6, 7, 10, 11, 13]).1, ?_⟩
  have h := (compute_gaps_spec [5, 6, 7, 10, 11, 13]).2.2 2 (by decide)
  simpa using h

/-! ## Claims about the cluster and k-tuple scanners

The characterization is established once for `runsAux`, by induction along
the scan: relative to the elements still to be visited, the runs it emits
are exactly the maximal consecutive blocks of the effective sequence
`blockL rs len ++ rest` (the current partial run followed by the rest). -/
lemma mem_blockL {rs : Int} {len : Nat} {y : Int} :
    y ∈ blockL rs len ↔ rs ≤ y ∧ y < rs + (len : Int) := by
  simp only [blockL, List.mem_map, List.mem_range]
  constructor
  · rintro ⟨j, hj, rfl⟩
    omega
  · rintro ⟨h1, h2⟩
    refine ⟨(y - rs).toNat, by omega, by omega⟩

lemma blockL_one (x : Int) : blockL x 1 = [x] := by
  simp [blockL, List.range_succ]

lemma runsAux_mem_iff (rest : List Int) : ∀ (rs cur : Int) (len : Nat),
    1 ≤ len → cur = rs + (len : Int) - 1 →
    List.Pairwise (· < ·) (cur :: rest) →
    ∀ (s : Int) (L : Nat), ((s, L) ∈ runsAux rs len cur rest ↔
      (1 ≤ L ∧ (∀ j : Nat, j < L → s + (j : Int) ∈ blockL rs len ++ rest) ∧
       (s - 1) ∉ blockL rs len ++ rest ∧
       (s + (L : Int)) ∉ blockL rs len ++ rest)) := by
  induction rest with
  | nil =>
    intro rs cur len hlen hcur _ s L
    simp only [runsAux, List.append_nil, List.mem_singleton, Prod.mk.injEq]
    constructor
    · rintro ⟨rfl, rfl⟩
      refine ⟨hlen, fun j hj => ?_, ?_, ?_⟩
      · rw [mem_blockL]; omega
      · rw [mem_blockL]; omega
      · rw [mem_blockL]; omega
    · rintro ⟨hL, hmem, hleft, hright⟩
      have h0 := hmem 0 (by omega)
      have hlast := hmem (L - 1) (by omega)
      rw [mem_blockL] at h0 hlast hleft hright
      constructor <;> omega
  | cons x rest ih =>
    intro rs cur len hlen hcur hpw s L
    rw [List.pairwise_cons] at hpw
    obtain ⟨hcurlt, hpwrest⟩ := hpw
    have hx : cur < x := hcurlt x (List.mem_cons_self x rest)
    have hxlt : ∀ y ∈ rest, x < y := (List.pairwise_cons.mp hpwrest).1
    by_cases hext : x = cur + 1
    · rw [show runsAux rs len cur (x :: rest) = runsAux rs (len + 1) x rest by
        simp [runsAux, hext]]
      rw [ih rs x (len + 1) (by omega) (by push_cast; omega) hpwrest s L]
      have hxval : x = rs + (len : Int) := by omega
      have hmemE : ∀ y : Int,
          (y ∈ blockL rs (len + 1) ++ rest ↔ y ∈ blockL rs len ++ x :: rest) := by
        intro y
        simp only [List.mem_append, List.mem_cons, mem_blockL]
        constructor
        · rintro (h | h)
          · push_cast at h
            by_cases h2 : y < rs + (len : Int)
            · exact Or.inl ⟨h.1, h2⟩
            · exact Or.inr (Or.inl (by omega))
          · exact Or.inr (Or.inr h)
        · rintro (h | h | h)
          · exact Or.inl (by push_cast; omega)
          · exact Or.inl (by push_cast; omega)
          · exact Or.inr h
      simp only [hmemE]
    · have hx2 : cur + 1 < x := by
        rcases lt_or_eq_of_le (by omega : cur + 1 ≤ x) with h | h
        · exact h
        · exact absurd h.symm hext
      rw [show runsAux rs len cur (x :: rest) = (rs, len) :: runsAux x 1 x rest by
        simp [runsAux, hext]]
      rw [List.mem_cons, ih x x 1 le_rfl (by push_cast; omega) hpwrest s L]
      simp only [blockL_one, List.singleton_append, List.mem_append, List.mem_cons,
        mem_blockL, Prod.mk.injEq]
      constructor
      · rintro (⟨rfl, rfl⟩ | ⟨hL, hmem, hml, hmr⟩)
        · refine ⟨hlen, fun j hj => Or.inl (by omega), ?_, ?_⟩
          · rintro (h | h | h)
            · omega
            · omega
            · exact absurd (hxlt _ h) (by omega)
          · rintro (h | h | h)
            · omega
            · omega
            · exact absurd (hxlt _ h) (by omega)
        · have hs0 : s = x ∨ s ∈ rest := by simpa using hmem 0 (by omega)
          have hsx : x ≤ s := by
            rcases hs0 with h | h
            · omega
            · exact le_of_lt (hxlt _ h)
          refine ⟨hL, fun j hj => Or.inr (by simpa using hmem j hj), ?_, ?_⟩
          · rintro (h | h | h)
            · omega
            · exact hml (Or.inl h)
            · exact hml (Or.inr h)
          · rintro (h | h | h)
            · omega
            · exact hmr (Or.inl h)
            · exact hmr (Or.inr h)
      · rintro ⟨hL, hmem, hml, hmr⟩
        have hm0 := hmem 0 (by omega)
        simp only [Nat.cast_zero, add_zero] at hm0
        rcases hm0 with h0 | h0 | h0
        · -- s is in the block: the first run is emitted
          left
          have hsrs : s = rs := by
            by_cases hgt : rs < s
            · exact absurd (Or.inl (by omega)) hml
            · omega
          subst hsrs
          have hLlen : L = len := by
            by_cases hlt : L < len
            · exact absurd (hmem L (by omega)) (by
                rintro (h | h | h)
                · exact hmr (Or.inl (by omega))
                · omega
                · exact absurd (hxlt _ h) (by omega))
            · by_cases hgt : len < L
              · rcases hmem len (by omega) with h | h | h
                · omega
                · omega
                · exact absurd (hxlt _ h) (by omega)
              · omega
          exact ⟨rfl, hLlen⟩
        · -- s = x: the tail scan covers it
          right
          refine ⟨hL, fun j hj => ?_, ?_, ?_⟩
          · rcases hmem j hj with h | h | h
            · exact absurd h (by omega)
            · exact Or.inl h
            · exact Or.inr h
          · intro h
            rcases h with h | h
            · exact hml (Or.inr (Or.inl h))
            · exact hml (Or.inr (Or.inr h))
          · intro h
            rcases h with h | h
            · exact hmr (Or.inr (Or.inl h))
            · exact hmr (Or.inr (Or.inr h))
        · -- s ∈ rest
          right
          have hsx : x < s := hxlt _ h0
          refine ⟨hL, fun j hj => ?_, ?_, ?_⟩
          · rcases hmem j hj with h | h | h
            · exact absurd h (by omega)
            · exact Or.inl h
            · exact Or.inr h
          · intro h
            rcases h with h | h
            · exact hml (Or.inr (Or.inl h))
            · exact hml (Or.inr (Or.inr h))
          · intro h
            rcases h with h | h
            · exact hmr (Or.inr (Or.inl h))
            · exact hmr (Or.inr (Or.inr h))

lemma runsAux_starts (rest : List Int) : ∀ (rs cur : Int) (len : Nat),
    List.Pairwise (· < ·) (cur :: rest) → rs ≤ cur →
    ((∀ p ∈ runsAux rs len cur rest, rs ≤ p.1) ∧
     List.Pairwise (fun a b : Int × Nat => a.1 < b.1) (runsAux rs len cur rest)) := by
  induction rest with
  | nil =>
    intro rs cur len _ _
    refine ⟨fun p hp => ?_, ?_⟩
    · simp only [runsAux, List.mem_singleton] at hp
      subst hp
      exact le_rfl
    · simp [runsAux]
  | cons x rest ih =>
    intro rs cur len hpw hrs
    rw [List.pairwise_cons] at hpw
    obtain ⟨hcurlt, hpwrest⟩ := hpw
    have hx : cur < x := hcurlt x (List.mem_cons_self x rest)
    by_cases hext : x = cur + 1
    · rw [show runsAux rs len cur (x :: rest) = runsAux rs (len + 1) x rest by
        simp [runsAux, hext]]
      exact ih rs x (len + 1) hpwrest (by omega)
    · rw [show runsAux rs len cur (x :: rest) = (rs, len) :: runsAux x 1 x rest by
        simp [runsAux, hext]]
      obtain ⟨hall, hpw'⟩ := ih x x 1 hpwrest le_rfl
      refine ⟨fun p hp => ?_, ?_⟩
      · rcases List.mem_cons.mp hp with h | h
        · subst h; exact le_rfl
        · exact le_trans (by omega) (hall p h)
      · rw [List.pairwise_cons]
        exact ⟨fun p hp => lt_of_lt_of_le (by omega) (hall p hp), hpw'⟩

lemma clustersAux_eq_filter (rest : List Int) : ∀ (rs cur : Int) (len : Nat),
    clustersAux rs len cur rest =
      (runsAux rs len cur rest).filter (fun p => decide (2 ≤ p.2)) := by
  induction rest with
  | nil =>
    intro rs cur len
    by_cases h : 2 ≤ len <;> simp [clustersAux, runsAux, h]
  | cons x rest ih =>
    intro rs cur len
    by_cases hext : x = cur + 1
    · simp [clustersAux, runsAux, hext, ih]
    · by_cases h : 2 ≤ len <;> simp [clustersAux, runsAux, hext, h, ih]

lemma ktuplesAux_eq_filter (rest : List Int) : ∀ (k : Nat) (rs cur : Int) (len : Nat),
    ktuplesAux k rs len cur rest =
      ((runsAux rs len cur rest).filter (fun p => decide (p.2 = k))).map Prod.fst := by
  induction rest with
  | nil =>
    intro k rs cur len
    by_cases h : len = k <;> simp [ktuplesAux, runsAux, h]
  | cons x rest ih =>
    intro k rs cur len
    by_cases hext : x = cur + 1
    · simp [ktuplesAux, runsAux, hext, ih]
    · by_cases h : len = k <;> simp [ktuplesAux, runsAux, hext, h, ih]

lemma allRuns_mem_iff {l : List Int} (hl : List.Pairwise (· < ·) l) (s : Int) (L : Nat) :
    (s, L) ∈ allRuns l ↔
      (1 ≤ L ∧ (∀ j : Nat, j < L → s + (j : Int) ∈ l) ∧
       (s - 1) ∉ l ∧ (s + (L : Int)) ∉ l) := by
  cases l with
  | nil =>
    simp only [allRuns, List.not_mem_nil, false_iff]
    rintro ⟨hL, hmem, -, -⟩
    exact hmem 0 (by omega)
  | cons x rest =>
    have h := runsAux_mem_iff rest x x 1 le_rfl (by push_cast; omega) hl s L
    rwa [blockL_one, List.singleton_append] at h

lemma allRuns_pairwise {l : List Int} (hl : List.Pairwise (· < ·) l) :
    List.Pairwise (fun a b : Int × Nat => a.1 < b.1) (allRuns l) := by
  cases l with
  | nil => simp [allRuns]
  | cons x rest => exact (runsAux_starts rest x x 1 hl le_rfl).2

lemma find_all_clusters_eq_filter (l : List Int) :
    find_all_clusters l = (allRuns l).filter (fun p => decide (2 ≤ p.2)) := by
  cases l with
  | nil => simp [find_all_clusters, allRuns]
  | cons x rest => exact clustersAux_eq_filter rest x x 1

lemma find_ktuples_eq_filter (l : List Int) (k : Nat) :
    find_ktuples l k = ((allRuns l).filter (fun p => decide (p.2 = k))).map Prod.fst := by
  cases l with
  | nil => simp [find_ktuples, allRuns]
  | cons x rest => exact ktuplesAux_eq_filter rest k x x 1

lemma mem_find_all_clusters {l : List Int} (hl : List.Pairwise (· < ·) l)
    (s : Int) (L : Nat) :
    (s, L) ∈ find_all_clusters l ↔
      (2 ≤ L ∧ (∀ j : Nat, j < L → s + (j : Int) ∈ l) ∧
       (s - 1) ∉ l ∧ (s + (L : Int)) ∉ l) := by
  rw [find_all_clusters_eq_filter, List.mem_filter, allRuns_mem_iff hl s L,
    decide_eq_true_eq]
  constructor
  · rintro ⟨⟨h1, hmem, hml, hmr⟩, h2⟩
    exact ⟨h2, hmem, hml, hmr⟩
  · rintro ⟨h2, hmem, hml, hmr⟩
    exact ⟨⟨by omega, hmem, hml, hmr⟩, h2⟩

lemma find_all_clusters_pairwise {l : List Int} (hl : List.Pairwise (· < ·) l) :
    List.Pairwise (fun a b : Int × Nat => a.1 < b.1) (find_all_clusters l) := by
  rw [find_all_clusters_eq_filter]
  exact List.Pairwise.filter _ (allRuns_pairwise hl)

/-- C3: on every sorted deduplicated sequence, `find_all_clusters` emits
exactly the maximal consecutive runs of length at least 2 as
`(start, length)` pairs in input order (starts strictly increasing), and
singletons are not reported; on `[5, 6, 7, 10, 11, 13]` it yields
`[(5, 3), (10, 2)]`. -/
theorem find_all_clusters_spec :
    (∀ l : List Int, List.Pairwise (· < ·) l →
      ((∀ (s : Int) (L : Nat), ((s, L) ∈ find_all_clusters l ↔
          (2 ≤ L ∧ (∀ j : Nat, j < L → s + (j : Int) ∈ l) ∧
           (s - 1) ∉ l ∧ (s + (L : Int)) ∉ l))) ∧
       List.Pairwise (fun a b : Int × Nat => a.1 < b.1) (find_all_clusters l))) ∧
    find_all_clusters [5, 6, 7, 10, 11, 13] = [(5, 3), (10, 2)] :=
  ⟨fun l hl => ⟨mem_find_all_clusters hl, find_all_clusters_pairwise hl⟩, by decide⟩

/-- Witness for C3: the characterization applied to the concrete sorted
sequence `[5, 6, 7, 10, 11, 13]` at the run `(5, 3)`. -/
theorem find_all_clusters_spec_witness :
    (5, 3) ∈ find_all_clusters [5, 6, 7, 10, 11, 13] :=
  ((find_all_clusters_spec.1 [5, 6, 7, 10, 11, 13] (by decide)).1 5 3).mpr (by decide)

/-- C5: on every sorted deduplicated sequence and every `k ≥ 1`,
`find_ktuples` returns exactly the starts of the maximal consecutive runs
of length exactly `k`; a longer maximal run contributes nothing, so the
length-5 run `[1, 2, 3, 4, 5]` yields no 4-tuple. -/
theorem find_ktuples_spec :
    (∀ (l : List Int), List.Pairwise (· < ·) l → ∀ (k : Nat), 1 ≤ k → ∀ s : Int,
      (s ∈ find_ktuples l k ↔
        ((∀ j : Nat, j < k → s + (j : Int) ∈ l) ∧
         (s - 1) ∉ l ∧ (s + (k : Int)) ∉ l))) ∧
    find_ktuples [1, 2, 3, 4, 5] 4 = [] := by
  refine ⟨?_, by decide⟩
  intro l hl k hk s
  rw [find_ktuples_eq_filter, List.mem_map]
  constructor
  · rintro ⟨⟨s', L'⟩, hp, rfl⟩
    rw [List.mem_filter, decide_eq_true_eq] at hp
    obtain ⟨hmem, hLk⟩ := hp
    subst hLk
    have h := (allRuns_mem_iff hl s' L').mp hmem
    exact ⟨h.2.1, h.2.2.1, h.2.2.2⟩
  · rintro ⟨hmem, hml, hmr⟩
    refine ⟨(s, k), ?_, rfl⟩
    rw [List.mem_filter, decide_eq_true_eq]
    exact ⟨(allRuns_mem_iff hl s k).mpr ⟨hk, hmem, hml, hmr⟩, rfl⟩

/-- Witness for C5: the characterization applied to `[5, 6, 7, 10, 11, 13]`
with `k = 2` at start 10. -/
theorem find_ktuples_spec_witness :
    10 ∈ find_ktuples [5, 6, 7, 10, 11, 13] 2 :=
  (find_ktuples_spec.1 [5, 6, 7, 10, 11, 13] (by decide) 2 (by decide) 10).mpr (by decide)

/-- C4: expanding each run reported by `find_all_clusters` to its
`length`-many consecutive integers and adding the elements not covered by
any run reproduces the original sorted deduplicated sequence exactly: a
permutation of it, with no element omitted or duplicated. -/
theorem find_all_clusters_roundtrip :
    ∀ l : List Int, List.Pairwise (· < ·) l →
      List.Perm
        (coveredByRuns l ++ l.filter (fun x => decide (x ∉ coveredByRuns l))) l := by
  intro l hl
  have hnodupl : l.Nodup := List.Pairwise.imp (fun h => ne_of_lt h) hl
  have hsub : ∀ y ∈ coveredByRuns l, y ∈ l := by
    intro y hy
    simp only [coveredByRuns, List.mem_flatten, List.mem_map] at hy
    obtain ⟨blk, ⟨⟨s, L⟩, hmem, rfl⟩, hyblk⟩ := hy
    rw [mem_blockL] at hyblk
    have hch := (mem_find_all_clusters hl s L).mp hmem
    have hin := hch.2.1 (y - s).toNat (by omega)
    have hycast : s + ((y - s).toNat : Int) = y := by omega
    rwa [hycast] at hin
  have hCnodup : (coveredByRuns l).Nodup := by
    rw [coveredByRuns, List.nodup_flatten]
    constructor
    · intro blk hblk
      obtain ⟨⟨s, L⟩, hmem, rfl⟩ := List.mem_map.mp hblk
      exact List.Nodup.map (fun a b hab => by omega) (List.nodup_range _)
    · rw [List.pairwise_map]
      refine List.Pairwise.imp_of_mem ?_ (find_all_clusters_pairwise hl)
      rintro ⟨s, L⟩ ⟨s', L'⟩ hp hq hlt
      intro y hyp hyq
      rw [mem_blockL] at hyp hyq
      have hchp := (mem_find_all_clusters hl s L).mp hp
      have hchq := (mem_find_all_clusters hl s' L').mp hq
      have hin := hchp.2.1 (s' - 1 - s).toNat (by omega)
      have hcast : s + ((s' - 1 - s).toNat : Int) = s' - 1 := by omega
      rw [hcast] at hin
      exact hchq.2.2.1 hin
  have hfilnodup : (l.filter (fun x => decide (x ∉ coveredByRuns l))).Nodup :=
    List.Nodup.filter _ hnodupl
  have hdisj :
      List.Disjoint (coveredByRuns l)
        (l.filter (fun x => decide (x ∉ coveredByRuns l))) := by
    intro y hy hyf
    have h2 := (List.mem_filter.mp hyf).2
    rw [decide_eq_true_eq] at h2
    exact h2 hy
  have hLnodup := List.Nodup.append hCnodup hfilnodup hdisj
  have hsub1 :
      (coveredByRuns l ++ l.filter (fun x => decide (x ∉ coveredByRuns l))) ⊆ l := by
    intro y hy
    rcases List.mem_append.mp hy with h | h
    · exact hsub y h
    · exact (List.mem_filter.mp h).1
  have hsub2 :
      l ⊆ (coveredByRuns l ++ l.filter (fun x => decide (x ∉ coveredByRuns l))) := by
    intro y hy
    by_cases hc : y ∈ coveredByRuns l
    · exact List.mem_append.mpr (Or.inl hc)
    · exact List.mem_append.mpr
        (Or.inr (List.mem_filter.mpr ⟨hy, by rw [decide_eq_true_eq]; exact hc⟩))
  exact (hLnodup.subperm hsub1).antisymm (hnodupl.subperm hsub2)

/-- Witness for C4: the round trip on the concrete sorted sequence
`[5, 6, 7, 10, 11, 13]`. -/
theorem find_all_clusters_roundtrip_witness :
    List.Perm
      (coveredByRuns [5, 6, 7, 10, 11, 13] ++
        ([5, 6, 7, 10, 11, 13] : List Int).filter
          (fun x => decide (x ∉ coveredByRuns [5, 6, 7, 10, 11, 13])))
      [5, 6, 7, 10, 11, 13] :=
  find_all_clusters_roundtrip [5, 6, 7, 10, 11, 13] (by decide)
